import Mathlib

/-!
Verification of the `flatfilecache` TypeScript library (`src/index.ts`).

The library is a filesystem-backed key/value cache: each stored value is
serialized with `JSON.stringify` and written to a file named by the sha1
hex digest of the key inside a flat root directory; the file's
modification time encodes the expiry deadline (`now + ttl` seconds).

Shallow embedding choices:
* Time is modelled in integer milliseconds (`Nat`).  `Date.now()` is the
  `nowMs` argument threaded through each operation; `this.time()` is
  `nowMs / 1000` (floor), exactly as `Math.floor(Date.now() / 1000)`.
* The filesystem is the single cache-root directory: `FS.root` is
  `none` when the directory does not exist and `some entries` otherwise,
  where `entries` maps file names (lists of characters) to files.
  `FS.badStat` / `FS.badReaddir` inject non-ENOENT filesystem faults for
  `stat` on a given name and for `readdir` on the root, so that the
  error-handling branches of the source are part of the model.
* Asynchronous I/O is modelled sequentially: every filesystem call takes
  effect immediately, in program order (including the promises the
  source does not `await`).
* `JSON.stringify` / `JSON.parse` (JavaScript builtins, not repository
  code) are modelled on a JSON value type with integer numbers; the
  parser covers exactly the whitespace-free texts the serializer
  produces, which is what flows from `set` to `get`.
* `sha1` (Node `crypto`) is an arbitrary function parameter `hash`:
  every theorem below holds for any choice of hash function.
-/

namespace FlatFileCache

-- JSON values (numbers restricted to integers; JavaScript objects are
-- ordered association lists, arrays ordered lists).  Deep equality of the
-- original claim is plain equality of this type.
mutual
inductive Json where
  | null : Json
  | bool (b : Bool) : Json
  | num (n : Int) : Json
  | str (s : List Char) : Json
  | arr (elems : JsonList) : Json
  | obj (members : JsonObj) : Json
inductive JsonList where
  | nil : JsonList
  | cons (hd : Json) (tl : JsonList) : JsonList
inductive JsonObj where
  | nil : JsonObj
  | cons (key : List Char) (val : Json) (tl : JsonObj) : JsonObj
end

deriving instance DecidableEq for Json

/-- The `{` character (written via its code point). -/
def lbrace : Char := Char.ofNat 123

/-- The `}` character (written via its code point). -/
def rbrace : Char := Char.ofNat 125

/-- Lower-case hex digit for a value below 16. -/
def hexDig (n : Nat) : Char :=
  if n < 10 then Char.ofNat (48 + n) else Char.ofNat (87 + n)

/-- JSON string escaping of one character, as `JSON.stringify` does it:
quote, backslash and the common control characters get two-character
escapes, the remaining control characters a `\u00XX` escape, everything
else is emitted verbatim. -/
def escChar (c : Char) : List Char :=
  if c = '"' then ['\\', '"']
  else if c = '\\' then ['\\', '\\']
  else if c = '\n' then ['\\', 'n']
  else if c = '\r' then ['\\', 'r']
  else if c = '\t' then ['\\', 't']
  else if c.toNat < 32 then
    ['\\', 'u', '0', '0', hexDig (c.toNat / 16), hexDig (c.toNat % 16)]
  else [c]

/-- Escape a whole string body. -/
def escString (s : List Char) : List Char :=
  s.foldr (fun c acc => escChar c ++ acc) []

/-- Decimal digits of a positive number, accumulator style. -/
def natCharsAux : Nat → List Char → List Char
  | 0, acc => acc
  | n + 1, acc => natCharsAux ((n + 1) / 10) (Char.ofNat (48 + (n + 1) % 10) :: acc)
decreasing_by exact Nat.div_lt_self (Nat.succ_pos n) (by norm_num)

/-- Decimal representation of a natural number. -/
def natChars (n : Nat) : List Char :=
  if n = 0 then ['0'] else natCharsAux n []

/-- Decimal representation of an integer, as `JSON.stringify` prints an
integral JavaScript number. -/
def intChars (i : Int) : List Char :=
  if i < 0 then '-' :: natChars i.natAbs else natChars i.natAbs

/-- The four characters of the literal `null`. -/
def nullChars : List Char := ['n', 'u', 'l', 'l']

/-- The four characters of the literal `true`. -/
def trueChars : List Char := ['t', 'r', 'u', 'e']

/-- The five characters of the literal `false`. -/
def falseChars : List Char := ['f', 'a', 'l', 's', 'e']

-- `JSON.stringify`, modelled on `Json` (no whitespace, insertion-order
-- object keys).
mutual
def serialize : Json → List Char
  | .null => nullChars
  | .bool true => trueChars
  | .bool false => falseChars
  | .num n => intChars n
  | .str s => '"' :: (escString s ++ ['"'])
  | .arr l => '[' :: (serializeList l ++ [']'])
  | .obj o => lbrace :: (serializeObj o ++ [rbrace])
def serializeList : JsonList → List Char
  | .nil => []
  | .cons x .nil => serialize x
  | .cons x (.cons y tl) => serialize x ++ ',' :: serializeList (.cons y tl)
def serializeObj : JsonObj → List Char
  | .nil => []
  | .cons k v .nil => '"' :: (escString k ++ '"' :: ':' :: serialize v)
  | .cons k v (.cons k2 v2 tl) =>
      '"' :: (escString k ++ '"' :: ':' :: serialize v) ++ ',' :: serializeObj (.cons k2 v2 tl)
end

/-- Hex digit value of a character, as the JSON `\uXXXX` escape reads it. -/
def hexVal (c : Char) : Option Nat :=
  if 48 ≤ c.toNat ∧ c.toNat ≤ 57 then some (c.toNat - 48)
  else if 97 ≤ c.toNat ∧ c.toNat ≤ 102 then some (c.toNat - 87)
  else if 65 ≤ c.toNat ∧ c.toNat ≤ 70 then some (c.toNat - 55)
  else none

/-- Single-character JSON escapes (`\"`, `\\`, `\/`, `\b`, `\f`, `\n`,
`\r`, `\t`). -/
def unescName (c : Char) : Option Char :=
  if c = '"' then some '"'
  else if c = '\\' then some '\\'
  else if c = '/' then some '/'
  else if c = 'b' then some (Char.ofNat 8)
  else if c = 'f' then some (Char.ofNat 12)
  else if c = 'n' then some '\n'
  else if c = 'r' then some '\r'
  else if c = 't' then some '\t'
  else none

/-- Parse a JSON string body (after the opening quote) up to and
including the closing quote; raw control characters are rejected, as
`JSON.parse` rejects them. -/
def parseStringBody : List Char → Option (List Char × List Char)
  | [] => none
  | c :: rest =>
    if c = '"' then some ([], rest)
    else if c = '\\' then
      match rest with
      | [] => none
      | e :: rest2 =>
        if e = 'u' then
          match rest2 with
          | h1 :: h2 :: h3 :: h4 :: rest3 =>
            match hexVal h1, hexVal h2, hexVal h3, hexVal h4 with
            | some a, some b, some c2, some d =>
              match parseStringBody rest3 with
              | some (s, r) => some (Char.ofNat (((a * 16 + b) * 16 + c2) * 16 + d) :: s, r)
              | none => none
            | _, _, _, _ => none
          | _ => none
        else
          match unescName e with
          | some u =>
            match parseStringBody rest2 with
            | some (s, r) => some (u :: s, r)
            | none => none
          | none => none
    else if c.toNat < 32 then none
    else
      match parseStringBody rest with
      | some (s, r) => some (c :: s, r)
      | none => none

/-- Does the list fail to start with a decimal digit?  (The delimiter
condition under which the number parser stops exactly at a serialized
number.) -/
def noDigitHead : List Char → Bool
  | [] => true
  | c :: _ => !c.isDigit

/-- Take the leading run of decimal digits. -/
def takeDigits : List Char → List Char × List Char
  | [] => ([], [])
  | c :: rest =>
    if c.isDigit then
      let p := takeDigits rest
      (c :: p.1, p.2)
    else ([], c :: rest)

/-- Numeric value of a digit string. -/
def digitsVal (ds : List Char) : Nat :=
  ds.foldl (fun a c => a * 10 + (c.toNat - 48)) 0

/-- Parse an (integral) JSON number: optional minus sign then digits. -/
def parseNum : List Char → Option (Int × List Char)
  | [] => none
  | c :: rest =>
    if c = '-' then
      if (rest.headD ' ').isDigit then
        let p := takeDigits rest
        some (-(digitsVal p.1 : Int), p.2)
      else none
    else if c.isDigit then
      let p := takeDigits (c :: rest)
      some ((digitsVal p.1 : Int), p.2)
    else none

/-- Recognize the tail `ull` of the literal `null`. -/
def expectNull : List Char → Option (Json × List Char)
  | 'u' :: 'l' :: 'l' :: r => some (.null, r)
  | _ => none

/-- Recognize the tail `rue` of the literal `true`. -/
def expectTrue : List Char → Option (Json × List Char)
  | 'r' :: 'u' :: 'e' :: r => some (.bool true, r)
  | _ => none

/-- Recognize the tail `alse` of the literal `false`. -/
def expectFalse : List Char → Option (Json × List Char)
  | 'a' :: 'l' :: 's' :: 'e' :: r => some (.bool false, r)
  | _ => none

/-- Parse a string value (after the opening quote). -/
def parseStrVal (s : List Char) : Option (Json × List Char) :=
  match parseStringBody s with
  | some (s2, r) => some (.str s2, r)
  | none => none

/-- Parse a number value. -/
def parseNumVal (s : List Char) : Option (Json × List Char) :=
  match parseNum s with
  | some (n, r) => some (.num n, r)
  | none => none

/-- After `[`: either an empty array or a non-empty element list parsed
by `pE`. -/
def parseArrTail (pE : List Char → Option (JsonList × List Char)) :
    List Char → Option (Json × List Char)
  | [] => none
  | r0 :: r1 =>
    if r0 = ']' then some (.arr .nil, r1)
    else
      match pE (r0 :: r1) with
      | some (l, r) => some (.arr l, r)
      | none => none

/-- After the opening brace: either an empty object or a non-empty
member list parsed by `pM`. -/
def parseObjTail (pM : List Char → Option (JsonObj × List Char)) :
    List Char → Option (Json × List Char)
  | [] => none
  | r0 :: r1 =>
    if r0 = rbrace then some (.obj .nil, r1)
    else
      match pM (r0 :: r1) with
      | some (o, r) => some (.obj o, r)
      | none => none

/-- After one array element: `]` closes the array, `,` continues with
`pE`. -/
def parseElemsTail (pE : List Char → Option (JsonList × List Char)) (v : Json) :
    List Char → Option (JsonList × List Char)
  | [] => none
  | r0 :: r2 =>
    if r0 = ']' then some (.cons v .nil, r2)
    else if r0 = ',' then
      match pE r2 with
      | some (l, r3) => some (.cons v l, r3)
      | none => none
    else none

/-- After one object member: the closing brace ends the object, `,`
continues with `pM`. -/
def parseMembersTail (pM : List Char → Option (JsonObj × List Char))
    (k : List Char) (v : Json) : List Char → Option (JsonObj × List Char)
  | [] => none
  | r0 :: r4 =>
    if r0 = rbrace then some (.cons k v .nil, r4)
    else if r0 = ',' then
      match pM r4 with
      | some (o, r5) => some (.cons k v o, r5)
      | none => none
    else none

/-- Expect `:` and then a value parsed by `pV`. -/
def parseColonVal (pV : List Char → Option (Json × List Char)) :
    List Char → Option (Json × List Char)
  | [] => none
  | c :: r2 => if c = ':' then pV r2 else none

-- Fuel-indexed recursive-descent parser for JSON values; the fuel
-- strictly decreases on every recursive call, so fuel at least the
-- nesting size of the value (`sizeJ` below) suffices.
mutual
def parseVal : Nat → List Char → Option (Json × List Char)
  | 0, _ => none
  | fuel + 1, s =>
    match s with
    | [] => none
    | c :: rest =>
      if c = 'n' then expectNull rest
      else if c = 't' then expectTrue rest
      else if c = 'f' then expectFalse rest
      else if c = '"' then parseStrVal rest
      else if c = '[' then parseArrTail (parseElems fuel) rest
      else if c = lbrace then parseObjTail (parseMembers fuel) rest
      else parseNumVal (c :: rest)
def parseElems : Nat → List Char → Option (JsonList × List Char)
  | 0, _ => none
  | fuel + 1, s =>
    match parseVal fuel s with
    | some (v, r) => parseElemsTail (parseElems fuel) v r
    | none => none
def parseMembers : Nat → List Char → Option (JsonObj × List Char)
  | 0, _ => none
  | fuel + 1, s =>
    match s with
    | [] => none
    | c :: s1 =>
      if c = '"' then
        match parseStringBody s1 with
        | some (k, r1) =>
          match parseColonVal (parseVal fuel) r1 with
          | some (v, r3) => parseMembersTail (parseMembers fuel) k v r3
          | none => none
        | none => none
      else none
end

-- Nesting-depth style size of a value; an upper bound on the fuel the
-- parser needs.
mutual
def sizeJ : Json → Nat
  | .null => 1
  | .bool _ => 1
  | .num _ => 1
  | .str _ => 1
  | .arr l => sizeL l + 1
  | .obj o => sizeO o + 1
def sizeL : JsonList → Nat
  | .nil => 1
  | .cons x tl => max (sizeJ x) (sizeL tl) + 1
def sizeO : JsonObj → Nat
  | .nil => 1
  | .cons _ v tl => max (sizeJ v) (sizeO tl) + 1
end

/-- `JSON.stringify` of the library's `set`. -/
def JSONstringify (v : Json) : List Char := serialize v

/-- `JSON.parse` of the library's `get`: parse the whole text, rejecting
trailing garbage; `none` models a thrown `SyntaxError`. -/
def JSONparse (s : List Char) : Option Json :=
  match parseVal (s.length + 1) s with
  | some (v, []) => some v
  | _ => none

/-- Non-"not found" filesystem errors are collapsed into `other`;
`enoent` is the not-found error the source special-cases. -/
inductive FsErr where
  | enoent : FsErr
  | other : FsErr
deriving DecidableEq

/-- A directory entry in the cache root: `isFile` is what
`stats.isFile()` reports (false for a subdirectory), `content` the file
bytes, `mtimeMs` the modification time in milliseconds. -/
structure FsFile where
  isFile : Bool
  content : List Char
  mtimeMs : Nat
deriving DecidableEq

/-- The filesystem as the cache engine sees it: the root directory
(`none` when absent) with its entries, plus fault-injection fields for
the non-ENOENT error branches of the source (`badStat`: names on which
`fs.promises.stat` fails with a non-ENOENT error; `badReaddir`:
`fs.promises.readdir` on the root fails with a non-ENOENT error). -/
structure FS where
  root : Option (List (List Char × FsFile))
  badStat : List (List Char)
  badReaddir : Bool
deriving DecidableEq

deriving instance DecidableEq for Except

/-- Look a name up in a directory listing. -/
def lookupName (n : List Char) : List (List Char × FsFile) → Option FsFile
  | [] => none
  | e :: rest => if e.1 = n then some e.2 else lookupName n rest

/-- Remove a name from a directory listing (`unlink`). -/
def removeName (n : List Char) : List (List Char × FsFile) → List (List Char × FsFile)
  | [] => []
  | e :: rest => if e.1 = n then removeName n rest else e :: removeName n rest

/-- Write a file under a name, overwriting an existing entry
(`fs.promises.writeFile`). -/
def writeName (n : List Char) (f : FsFile) : List (List Char × FsFile) → List (List Char × FsFile)
  | [] => [(n, f)]
  | e :: rest => if e.1 = n then (n, f) :: rest else e :: writeName n f rest

/-- The entry currently stored under a name, if the root exists. -/
def entryAt (fs : FS) (n : List Char) : Option FsFile :=
  match fs.root with
  | none => none
  | some entries => lookupName n entries

/-- `file.split('.')[0]`: the part of a name before its first `sep`. -/
def jsSplitFirst (sep : Char) (s : List Char) : List Char :=
  s.takeWhile (fun c => c != sep)

/-- The cache instance state: `ttl` is the default TTL in seconds set by
the constructor (`this.ttl = options.ttl || 60*60*24`). -/
structure FileCache where
  ttl : Nat
deriving DecidableEq

/-- JavaScript `a || d` on an optional number: `0` (and absence) are
falsy and fall through to the default. -/
def jsOrNat : Option Nat → Nat → Nat
  | some t, d => if t = 0 then d else t
  | none, d => d

namespace FileCache

/-- `time()`: `Math.floor(Date.now() / 1000)`. -/
def time (nowMs : Nat) : Nat := nowMs / 1000

/-- `getPath(key)`: `path.join(this.path, sha1(key))`, expressed as the
name inside the root directory; `hash` stands for `sha1`. -/
def getPath (hash : List Char → List Char) (key : List Char) : List Char :=
  hash key

/-- `validate(file)`: stat the path; a missing path (ENOENT) is a miss,
any other stat failure is rethrown; a non-file is a miss; a file is live
iff `this.time() < stats.mtime.getTime() / 1000`, i.e.
`time(nowMs) * 1000 < mtimeMs`; an expired file is unlinked and reported
as a miss. -/
def validate (nowMs : Nat) (fs : FS) (name : List Char) : Except FsErr (Bool × FS) :=
  if name ∈ fs.badStat then .error .other
  else
    match fs.root with
    | none => .ok (false, fs)
    | some entries =>
      match lookupName name entries with
      | none => .ok (false, fs)
      | some f =>
        if f.isFile then
          if time nowMs * 1000 < f.mtimeMs then .ok (true, fs)
          else .ok (false, { fs with root := some (removeName name entries) })
        else .ok (false, fs)

/-- `has(key)`: validate the hashed path, swallowing every error into
`false`. -/
def has (hash : List Char → List Char) (nowMs : Nat) (fs : FS) (key : List Char) :
    Bool × FS :=
  match validate nowMs fs (getPath hash key) with
  | .ok r => r
  | .error _ => (false, fs)

/-- `get(key)`: if `has` succeeds, read the file and `JSON.parse` it
(a parse failure, or the file vanishing between `has` and `readFile`,
propagates as an error); otherwise return `null` (modelled `none`). -/
def get (hash : List Char → List Char) (nowMs : Nat) (fs : FS) (key : List Char) :
    Except Unit (Option Json × FS) :=
  match has hash nowMs fs key with
  | (true, fs') =>
    match entryAt fs' (getPath hash key) with
    | some f =>
      match JSONparse f.content with
      | some v => .ok (some v, fs')
      | none => .error ()
    | none => .error ()
  | (false, fs') => .ok (none, fs')

/-- `set(key, value, options)`: `JSON.stringify` the value, write it to
the hashed path (ENOENT when the root is missing, a non-ENOENT error
when the path is a directory), then `utimes` the file to
`Date.now() + (options.ttl || this.ttl) * 1000` milliseconds.  The
write-then-touch pair happens at one instant in this sequential model,
so the resulting entry carries the final mtime directly. -/
def set (hash : List Char → List Char) (c : FileCache) (nowMs : Nat) (fs : FS)
    (key : List Char) (value : Json) (optTtl : Option Nat) : Except FsErr FS :=
  let name := getPath hash key
  let file : FsFile :=
    { isFile := true
      content := JSONstringify value
      mtimeMs := nowMs + jsOrNat optTtl c.ttl * 1000 }
  match fs.root with
  | none => .error .enoent
  | some entries =>
    match lookupName name entries with
    | some old =>
      if old.isFile then .ok { fs with root := some (writeName name file entries) }
      else .error .other
    | none => .ok { fs with root := some (writeName name file entries) }

/-- `delete(key)`: `unlink` the hashed path outright — a missing path
surfaces the ENOENT error, nothing is caught. -/
def delete (hash : List Char → List Char) (fs : FS) (key : List Char) :
    Except FsErr FS :=
  let name := getPath hash key
  match fs.root with
  | none => .error .enoent
  | some entries =>
    match lookupName name entries with
    | none => .error .enoent
    | some f =>
      if f.isFile then .ok { fs with root := some (removeName name entries) }
      else .error .other

/-- `getAllKeys()`: `readdir` the root and map each file name through
`split('.')[0]`; ENOENT yields `[]`, any other readdir error is
rethrown. -/
def getAllKeys (fs : FS) : Except FsErr (List (List Char)) :=
  if fs.badReaddir then .error .other
  else
    match fs.root with
    | none => .ok []
    | some entries => .ok (entries.map (fun e => jsSplitFirst '.' e.1))

/-- The loop body of `validateCache`: validate each listed key in order,
threading the filesystem state. -/
def validateList (nowMs : Nat) (fs : FS) : List (List Char) → Except FsErr FS
  | [] => .ok fs
  | k :: ks =>
    match validate nowMs fs k with
    | .ok (_, fs') => validateList nowMs fs' ks
    | .error e => .error e

/-- `validateCache()`: list all keys, then validate each one. -/
def validateCache (nowMs : Nat) (fs : FS) : Except FsErr FS :=
  match getAllKeys fs with
  | .ok keys => validateList nowMs fs keys
  | .error e => .error e

/-- `createFolder()`: `mkdir` the root (EEXIST swallowed), then run the
construction-time validation pass. -/
def createFolder (nowMs : Nat) (fs : FS) : Except FsErr FS :=
  let fs1 : FS :=
    match fs.root with
    | none => { fs with root := some [] }
    | some _ => fs
  validateCache nowMs fs1

/-- `deleteFolderRecursive(folder)` applied to the root: under the
sequential I/O model every listed child (file or subtree) is removed and
then the root itself, so an existing root becomes absent; a missing root
is a no-op (`existsSync` guard). -/
def deleteFolderRecursive (fs : FS) : FS :=
  match fs.root with
  | none => fs
  | some _ => { fs with root := none }

/-- `clearFolder()`. -/
def clearFolder (fs : FS) : FS := deleteFolderRecursive fs

/-- `clear()`: wipe, then recreate (and re-validate) the root, in that
order. -/
def clear (nowMs : Nat) (fs : FS) : Except FsErr FS :=
  createFolder nowMs (clearFolder fs)

/-- `deleteAll()`: wipe without recreating. -/
def deleteAll (fs : FS) : FS := clearFolder fs

/-- The constructor: record the default TTL
(`options.ttl || 60 * 60 * 24`) and run `createFolder` (fire-and-forget
in the source; completed before returning under the sequential I/O
model). -/
def init (optTtl : Option Nat) (nowMs : Nat) (fs : FS) :
    FileCache × Except FsErr FS :=
  (⟨jsOrNat optTtl (60 * 60 * 24)⟩, createFolder nowMs fs)

end FileCache

/-! ### Decimal digits: printing and reparsing -/

theorem natCharsAux_append (n : Nat) :
    ∀ acc : List Char, natCharsAux n acc = natCharsAux n [] ++ acc := by
  induction n using Nat.strong_induction_on with
  | _ n ih =>
    intro acc
    match n with
    | 0 => simp [natCharsAux]
    | m + 1 =>
      have hlt : (m + 1) / 10 < m + 1 := Nat.div_lt_self (Nat.succ_pos m) (by norm_num)
      rw [natCharsAux, natCharsAux, ih _ hlt (Char.ofNat (48 + (m + 1) % 10) :: acc),
        ih _ hlt [Char.ofNat (48 + (m + 1) % 10)]]
      simp

theorem digit_char_isDigit : ∀ k, k < 10 → (Char.ofNat (48 + k)).isDigit = true := by decide

theorem digit_char_toNat : ∀ k, k < 10 → (Char.ofNat (48 + k)).toNat = 48 + k := by decide

theorem natCharsAux_all_digits (n : Nat) :
    ∀ acc : List Char, (∀ c ∈ acc, c.isDigit = true) →
      ∀ c ∈ natCharsAux n acc, c.isDigit = true := by
  induction n using Nat.strong_induction_on with
  | _ n ih =>
    intro acc hacc c hc
    match n with
    | 0 =>
      rw [natCharsAux] at hc
      exact hacc c hc
    | m + 1 =>
      have hlt : (m + 1) / 10 < m + 1 := Nat.div_lt_self (Nat.succ_pos m) (by norm_num)
      rw [natCharsAux] at hc
      refine ih _ hlt _ ?_ c hc
      intro d hd
      rcases List.mem_cons.mp hd with h | h
      · subst h; exact digit_char_isDigit _ (Nat.mod_lt _ (by norm_num))
      · exact hacc d h

theorem natCharsAux_ne_nil (n : Nat) :
    ∀ acc : List Char, acc ≠ [] → natCharsAux n acc ≠ [] := by
  induction n using Nat.strong_induction_on with
  | _ n ih =>
    intro acc hacc
    match n with
    | 0 => rw [natCharsAux]; exact hacc
    | m + 1 =>
      have hlt : (m + 1) / 10 < m + 1 := Nat.div_lt_self (Nat.succ_pos m) (by norm_num)
      rw [natCharsAux]
      exact ih _ hlt _ (by simp)

theorem natChars_ne_nil (n : Nat) : natChars n ≠ [] := by
  rw [natChars]
  split
  · simp
  · next h =>
    match n, h with
    | m + 1, _ =>
      rw [natCharsAux]
      exact natCharsAux_ne_nil _ _ (by simp)

theorem natChars_all_digits (n : Nat) : ∀ c ∈ natChars n, c.isDigit = true := by
  rw [natChars]
  split
  · intro c hc
    simp at hc
    subst hc
    decide
  · exact natCharsAux_all_digits n [] (by simp)

theorem digitsVal_natCharsAux (n : Nat) : digitsVal (natCharsAux n []) = n := by
  induction n using Nat.strong_induction_on with
  | _ n ih =>
    match n with
    | 0 => rw [natCharsAux]; rfl
    | m + 1 =>
      have hlt : (m + 1) / 10 < m + 1 := Nat.div_lt_self (Nat.succ_pos m) (by norm_num)
      rw [natCharsAux, natCharsAux_append]
      unfold digitsVal
      rw [List.foldl_append]
      have hbase := ih _ hlt
      unfold digitsVal at hbase
      rw [hbase]
      simp only [List.foldl_cons, List.foldl_nil]
      rw [digit_char_toNat _ (Nat.mod_lt _ (by norm_num))]
      omega

theorem digitsVal_natChars (n : Nat) : digitsVal (natChars n) = n := by
  rw [natChars]
  split
  · next h => subst h; rfl
  · exact digitsVal_natCharsAux n

theorem takeDigits_append (ds : List Char) (rest : List Char)
    (hds : ∀ c ∈ ds, c.isDigit = true) (hrest : noDigitHead rest = true) :
    takeDigits (ds ++ rest) = (ds, rest) := by
  induction ds with
  | nil =>
    match rest with
    | [] => rfl
    | c :: r =>
      simp only [noDigitHead, Bool.not_eq_true'] at hrest
      simp [takeDigits, hrest]
  | cons d ds ih =>
    have hd : d.isDigit = true := hds d (by simp)
    have hih := ih (fun c hc => hds c (by simp [hc]))
    simp only [List.cons_append, takeDigits, hd, if_true]
    simp only [List.append_eq] at hih ⊢
    rw [hih]

theorem isDigit_ne_minus {c : Char} (h : c.isDigit = true) : c ≠ '-' := by
  intro hc; subst hc; simp at h

theorem parseNum_intChars (i : Int) (rest : List Char) (h : noDigitHead rest = true) :
    parseNum (intChars i ++ rest) = some (i, rest) := by
  obtain ⟨c, ds, hcons⟩ := List.exists_cons_of_ne_nil (natChars_ne_nil i.natAbs)
  have hdigits := natChars_all_digits i.natAbs
  have htake : takeDigits (natChars i.natAbs ++ rest) = (natChars i.natAbs, rest) :=
    takeDigits_append _ _ hdigits h
  have hc : c.isDigit = true := hdigits c (by rw [hcons]; simp)
  by_cases hneg : i < 0
  · rw [intChars, if_pos hneg, List.cons_append, parseNum, if_pos rfl]
    rw [hcons, List.cons_append, List.headD_cons, ← List.cons_append, ← hcons]
    rw [if_pos hc, htake]
    simp only [digitsVal_natChars]
    have hi : -((i.natAbs : Nat) : Int) = i := by omega
    rw [hi]
  · rw [intChars, if_neg hneg, hcons, List.cons_append, parseNum,
      if_neg (isDigit_ne_minus hc), if_pos hc, ← List.cons_append, ← hcons]
    rw [htake]
    simp only [digitsVal_natChars]
    have hi : ((i.natAbs : Nat) : Int) = i := by omega
    rw [hi]

/-! ### JSON strings: escaping and reparsing -/

theorem hexVal_hexDig : ∀ k, k < 16 → hexVal (hexDig k) = some k := by decide

theorem hexVal_zero : hexVal '0' = some 0 := by decide

theorem parseStringBody_escString (s : List Char) :
    ∀ rest, parseStringBody (escString s ++ '"' :: rest) = some (s, rest) := by
  induction s with
  | nil =>
    intro rest
    rw [show escString [] ++ '"' :: rest = '"' :: rest by simp [escString]]
    rw [parseStringBody.eq_def]
    simp
  | cons c s ih =>
    intro rest
    have hsplit : escString (c :: s) ++ '"' :: rest =
        escChar c ++ (escString s ++ '"' :: rest) := by
      simp [escString]
    rw [hsplit]
    by_cases h1 : c = '"'
    · subst h1
      rw [escChar, if_pos rfl]
      simp only [List.cons_append, List.nil_append]
      rw [parseStringBody.eq_def]
      simp [unescName, ih rest]
    · by_cases h2 : c = '\\'
      · subst h2
        rw [escChar]
        simp only [List.cons_append, List.nil_append]
        rw [parseStringBody.eq_def]
        simp [unescName, ih rest]
      · by_cases h3 : c = '\n'
        · subst h3
          rw [escChar]
          simp only [List.cons_append, List.nil_append]
          rw [parseStringBody.eq_def]
          simp [unescName, ih rest]
        · by_cases h4 : c = '\r'
          · subst h4
            rw [escChar]
            simp only [List.cons_append, List.nil_append]
            rw [parseStringBody.eq_def]
            simp [unescName, ih rest]
          · by_cases h5 : c = '\t'
            · subst h5
              rw [escChar]
              simp only [List.cons_append, List.nil_append]
              rw [parseStringBody.eq_def]
              simp [unescName, ih rest]
            · by_cases h6 : c.toNat < 32
              · rw [escChar, if_neg h1, if_neg h2, if_neg h3, if_neg h4, if_neg h5,
                  if_pos h6]
                have hhi : hexVal (hexDig (c.toNat / 16)) = some (c.toNat / 16) :=
                  hexVal_hexDig _ (by omega)
                have hlo : hexVal (hexDig (c.toNat % 16)) = some (c.toNat % 16) :=
                  hexVal_hexDig _ (Nat.mod_lt _ (by norm_num))
                have harith : c.toNat / 16 * 16 + c.toNat % 16 = c.toNat := by omega
                simp only [List.cons_append, List.nil_append]
                rw [parseStringBody.eq_def]
                simp [hhi, hlo, hexVal_zero, ih rest, harith, Char.ofNat_toNat]
              · rw [escChar, if_neg h1, if_neg h2, if_neg h3, if_neg h4, if_neg h5,
                  if_neg h6]
                simp only [List.cons_append, List.nil_append]
                rw [parseStringBody.eq_def]
                simp [h1, h2, h6, ih rest]

/-! ### Shape of serializer output -/

theorem intChars_head (i : Int) :
    ∃ c cs, intChars i = c :: cs ∧ (c = '-' ∨ c.isDigit = true) := by
  rw [intChars]
  split
  · exact ⟨'-', natChars i.natAbs, rfl, Or.inl rfl⟩
  · obtain ⟨c, cs, hcons⟩ := List.exists_cons_of_ne_nil (natChars_ne_nil i.natAbs)
    refine ⟨c, cs, hcons, Or.inr ?_⟩
    have := natChars_all_digits i.natAbs
    rw [hcons] at this
    exact this c (by simp)

theorem serialize_head (v : Json) :
    ∃ c cs, serialize v = c :: cs ∧
      (c = 'n' ∨ c = 't' ∨ c = 'f' ∨ c = '"' ∨ c = '[' ∨ c = lbrace ∨
        c = '-' ∨ c.isDigit = true) := by
  cases v with
  | null => exact ⟨'n', _, rfl, by simp⟩
  | bool b =>
    cases b with
    | true => exact ⟨'t', _, rfl, by simp⟩
    | false => exact ⟨'f', _, rfl, by simp⟩
  | num i =>
    obtain ⟨c, cs, hcons, hc⟩ := intChars_head i
    exact ⟨c, cs, by rw [serialize, hcons], by tauto⟩
  | str s => exact ⟨'"', _, rfl, by simp⟩
  | arr l => exact ⟨'[', _, rfl, by simp⟩
  | obj o => exact ⟨lbrace, _, rfl, by simp⟩

theorem serialize_head_ne_rbrack (v : Json) :
    ∀ c cs, serialize v = c :: cs → c ≠ ']' := by
  intro c cs hcons hc
  obtain ⟨c', cs', hcons', hc'⟩ := serialize_head v
  rw [hcons] at hcons'
  obtain ⟨rfl, -⟩ := List.cons.inj hcons'.symm
  subst hc
  rcases hc' with h | h | h | h | h | h | h | h <;> revert h <;> decide

theorem serializeList_cons_head (x : Json) (tl : JsonList) :
    ∃ c cs, serializeList (.cons x tl) = c :: cs ∧ c ≠ ']' := by
  cases tl with
  | nil =>
    obtain ⟨c, cs, hcons, -⟩ := serialize_head x
    exact ⟨c, cs, by rw [serializeList, hcons], serialize_head_ne_rbrack x c cs hcons⟩
  | cons y tl2 =>
    obtain ⟨c, cs, hcons, -⟩ := serialize_head x
    refine ⟨c, cs ++ ',' :: serializeList (.cons y tl2), ?_,
      serialize_head_ne_rbrack x c cs hcons⟩
    rw [serializeList, hcons, List.cons_append]

theorem isDigit_ne_keyword {c : Char} (h : c.isDigit = true) :
    c ≠ 'n' ∧ c ≠ 't' ∧ c ≠ 'f' ∧ c ≠ '"' ∧ c ≠ '[' ∧ c ≠ lbrace := by
  refine ⟨?_, ?_, ?_, ?_, ?_, ?_⟩ <;> · intro hc; subst hc; exact absurd h (by decide)

theorem sizeJ_pos (v : Json) : 1 ≤ sizeJ v := by
  cases v <;> simp [sizeJ]

theorem sizeL_pos (l : JsonList) : 1 ≤ sizeL l := by
  cases l <;> simp [sizeL]

theorem sizeO_pos (o : JsonObj) : 1 ≤ sizeO o := by
  cases o <;> simp [sizeO]


theorem quote_ne_rbrace : ('"' : Char) ≠ rbrace := by decide

theorem comma_ne_rbrace : (',' : Char) ≠ rbrace := by decide

/-! ### The parser inverts the serializer -/

theorem parse_serialize_bound (N : Nat) :
    (∀ v : Json, sizeJ v ≤ N → ∀ fuel rest, sizeJ v ≤ fuel → noDigitHead rest = true →
      parseVal fuel (serialize v ++ rest) = some (v, rest)) ∧
    (∀ l : JsonList, sizeL l ≤ N → ∀ fuel rest, sizeL l ≤ fuel → l ≠ .nil →
      parseElems fuel (serializeList l ++ ']' :: rest) = some (l, rest)) ∧
    (∀ o : JsonObj, sizeO o ≤ N → ∀ fuel rest, sizeO o ≤ fuel → o ≠ .nil →
      parseMembers fuel (serializeObj o ++ rbrace :: rest) = some (o, rest)) := by
  induction N using Nat.strong_induction_on with
  | _ N ih =>
    refine ⟨?_, ?_, ?_⟩
    · intro v hN fuel rest hf hrest
      obtain ⟨f, rfl⟩ : ∃ f, fuel = f + 1 :=
        ⟨fuel - 1, by have := sizeJ_pos v; omega⟩
      cases v with
      | null =>
        rw [serialize, nullChars]
        simp only [List.cons_append, List.nil_append]
        simp [parseVal]
        rw [expectNull.eq_def]
        simp
      | bool b =>
        cases b with
        | true =>
          rw [serialize, trueChars]
          simp only [List.cons_append, List.nil_append]
          simp [parseVal]
          rw [expectTrue.eq_def]
          simp
        | false =>
          rw [serialize, falseChars]
          simp only [List.cons_append, List.nil_append]
          simp [parseVal]
          rw [expectFalse.eq_def]
          simp
      | num i =>
        obtain ⟨c, cs, hcons, hc⟩ := intChars_head i
        have hpn : parseNum (intChars i ++ rest) = some (i, rest) :=
          parseNum_intChars i rest hrest
        rw [hcons, List.cons_append] at hpn
        rw [serialize, hcons, List.cons_append]
        rcases hc with rfl | hdig
        · simp [parseVal, parseNumVal, hpn, lbrace]
        · obtain ⟨hn, ht, hf2, hq, hb, hbr⟩ := isDigit_ne_keyword hdig
          simp [parseVal, parseNumVal, hn, ht, hf2, hq, hb, hbr, hpn]
      | str s =>
        have hps := parseStringBody_escString s rest
        rw [serialize, List.cons_append, List.append_assoc, List.cons_append,
          List.nil_append]
        simp [parseVal, parseStrVal, hps]
      | arr l =>
        have hN' : sizeL l + 1 ≤ N := by simpa [sizeJ] using hN
        have hf' : sizeL l ≤ f := by
          have : sizeL l + 1 ≤ f + 1 := by simpa [sizeJ] using hf
          omega
        cases l with
        | nil =>
          rw [serialize, serializeList, List.cons_append, List.nil_append,
            List.cons_append, List.nil_append]
          simp [parseVal, parseArrTail, lbrace]
        | cons x tl =>
          obtain ⟨c, cs, hSL, hcne⟩ := serializeList_cons_head x tl
          have helems := (ih (N - 1) (by omega)).2.1 (.cons x tl) (by omega) f rest hf'
            (by intro h; cases h)
          rw [hSL, List.cons_append] at helems
          rw [serialize, List.cons_append, List.append_assoc, List.cons_append,
            List.nil_append, hSL, List.cons_append]
          simp [parseVal, parseArrTail, lbrace, hcne, helems]
      | obj o =>
        have hN' : sizeO o + 1 ≤ N := by simpa [sizeJ] using hN
        have hf' : sizeO o ≤ f := by
          have : sizeO o + 1 ≤ f + 1 := by simpa [sizeJ] using hf
          omega
        cases o with
        | nil =>
          rw [serialize, serializeObj, List.cons_append, List.nil_append,
            List.cons_append, List.nil_append]
          simp [parseVal, parseObjTail, lbrace, rbrace]
        | cons k v tl =>
          have hmem := (ih (N - 1) (by omega)).2.2 (.cons k v tl) (by omega) f rest hf'
            (by intro h; cases h)
          have hSO : ∃ cs, serializeObj (.cons k v tl) = '"' :: cs := by
            cases tl with
            | nil => exact ⟨_, rfl⟩
            | cons k2 v2 tl2 => exact ⟨_, rfl⟩
          obtain ⟨cs, hSO⟩ := hSO
          rw [hSO, List.cons_append] at hmem
          rw [serialize, List.cons_append, List.append_assoc, List.cons_append,
            List.nil_append, hSO, List.cons_append]
          simp [parseVal, parseObjTail, lbrace, quote_ne_rbrace, hmem]
    · intro l hN fuel rest hf hne
      cases l with
      | nil => exact absurd rfl hne
      | cons x tl =>
        obtain ⟨f, rfl⟩ : ∃ f, fuel = f + 1 :=
          ⟨fuel - 1, by have := sizeL_pos (.cons x tl); omega⟩
        have hN' : max (sizeJ x) (sizeL tl) + 1 ≤ N := by simpa [sizeL] using hN
        have hmax : max (sizeJ x) (sizeL tl) ≤ f := by
          have : max (sizeJ x) (sizeL tl) + 1 ≤ f + 1 := by simpa [sizeL] using hf
          omega
        have hx : sizeJ x ≤ f := le_trans (le_max_left (sizeJ x) (sizeL tl)) hmax
        have htl : sizeL tl ≤ f := le_trans (le_max_right (sizeJ x) (sizeL tl)) hmax
        have hxN : sizeJ x ≤ N - 1 :=
          le_trans (le_max_left (sizeJ x) (sizeL tl)) (by omega)
        have htlN : sizeL tl ≤ N - 1 :=
          le_trans (le_max_right (sizeJ x) (sizeL tl)) (by omega)
        cases tl with
        | nil =>
          have hv := (ih (N - 1) (by omega)).1 x hxN f (']' :: rest) hx
            (by simp [noDigitHead])
          rw [serializeList, parseElems, hv]
          simp [parseElemsTail]
        | cons y tl2 =>
          have hv := (ih (N - 1) (by omega)).1 x hxN f
            (',' :: (serializeList (.cons y tl2) ++ ']' :: rest)) hx
            (by simp [noDigitHead])
          have hrec := (ih (N - 1) (by omega)).2.1 (.cons y tl2) htlN f rest htl
            (by intro h; cases h)
          rw [serializeList, List.append_assoc, List.cons_append, parseElems, hv]
          simp [parseElemsTail, hrec]
    · intro o hN fuel rest hf hne
      cases o with
      | nil => exact absurd rfl hne
      | cons k v tl =>
        obtain ⟨f, rfl⟩ : ∃ f, fuel = f + 1 :=
          ⟨fuel - 1, by have := sizeO_pos (.cons k v tl); omega⟩
        have hN' : max (sizeJ v) (sizeO tl) + 1 ≤ N := by simpa [sizeO] using hN
        have hmax : max (sizeJ v) (sizeO tl) ≤ f := by
          have : max (sizeJ v) (sizeO tl) + 1 ≤ f + 1 := by simpa [sizeO] using hf
          omega
        have hv' : sizeJ v ≤ f := le_trans (le_max_left (sizeJ v) (sizeO tl)) hmax
        have htl : sizeO tl ≤ f := le_trans (le_max_right (sizeJ v) (sizeO tl)) hmax
        have hvN : sizeJ v ≤ N - 1 :=
          le_trans (le_max_left (sizeJ v) (sizeO tl)) (by omega)
        have htlN : sizeO tl ≤ N - 1 :=
          le_trans (le_max_right (sizeJ v) (sizeO tl)) (by omega)
        cases tl with
        | nil =>
          have hval := (ih (N - 1) (by omega)).1 v hvN f (rbrace :: rest) hv'
            (by simp [noDigitHead, rbrace])
          have hkey := parseStringBody_escString k (':' :: (serialize v ++ rbrace :: rest))
          rw [serializeObj, List.cons_append, List.append_assoc, List.cons_append,
            List.cons_append, parseMembers]
          simp [hkey, parseColonVal, hval, parseMembersTail]
        | cons k2 v2 tl2 =>
          have hval := (ih (N - 1) (by omega)).1 v hvN f
            (',' :: (serializeObj (.cons k2 v2 tl2) ++ rbrace :: rest)) hv'
            (by simp [noDigitHead])
          have hrec := (ih (N - 1) (by omega)).2.2 (.cons k2 v2 tl2) htlN f rest htl
            (by intro h; cases h)
          have hkey := parseStringBody_escString k
            (':' :: (serialize v ++ ',' :: (serializeObj (.cons k2 v2 tl2) ++ rbrace :: rest)))
          rw [serializeObj, List.cons_append, List.append_assoc, List.cons_append,
            List.cons_append, List.append_assoc, List.cons_append, parseMembers]
          simp [hkey, parseColonVal, hval, parseMembersTail, comma_ne_rbrace, hrec]

theorem serialize_length_pos (v : Json) : 1 ≤ (serialize v).length := by
  obtain ⟨c, cs, hcons, -⟩ := serialize_head v
  rw [hcons]
  simp

theorem size_le_length_bound (N : Nat) :
    (∀ v : Json, sizeJ v ≤ N → sizeJ v ≤ (serialize v).length) ∧
    (∀ l : JsonList, sizeL l ≤ N → sizeL l ≤ (serializeList l).length + 1) ∧
    (∀ o : JsonObj, sizeO o ≤ N → sizeO o ≤ (serializeObj o).length + 1) := by
  induction N using Nat.strong_induction_on with
  | _ N ih =>
    refine ⟨?_, ?_, ?_⟩
    · intro v hN
      cases v with
      | null => simp [sizeJ, serialize, nullChars]
      | bool b => cases b <;> simp [sizeJ, serialize, trueChars, falseChars]
      | num i =>
        have h2 := serialize_length_pos (Json.num i)
        simpa [sizeJ] using h2
      | str s => simp [sizeJ, serialize]
      | arr l =>
        have hN' : sizeL l + 1 ≤ N := by simpa [sizeJ] using hN
        have hl := (ih (N - 1) (by omega)).2.1 l (by omega)
        rw [serialize]
        simp only [sizeJ, List.length_cons, List.length_append, List.length_singleton]
        omega
      | obj o =>
        have hN' : sizeO o + 1 ≤ N := by simpa [sizeJ] using hN
        have ho := (ih (N - 1) (by omega)).2.2 o (by omega)
        rw [serialize]
        simp only [sizeJ, List.length_cons, List.length_append, List.length_singleton]
        omega
    · intro l hN
      cases l with
      | nil => simp [sizeL, serializeList]
      | cons x tl =>
        have hN' : max (sizeJ x) (sizeL tl) + 1 ≤ N := by simpa [sizeL] using hN
        have hx := (ih (N - 1) (by omega)).1 x
          (le_trans (le_max_left (sizeJ x) (sizeL tl)) (by omega))
        have hxpos := serialize_length_pos x
        cases tl with
        | nil =>
          rw [serializeList]
          simp only [sizeL]
          omega
        | cons y tl2 =>
          have htl := (ih (N - 1) (by omega)).2.1 (.cons y tl2)
            (le_trans (le_max_right (sizeJ x) (sizeL (.cons y tl2))) (by omega))
          rw [serializeList]
          simp only [sizeL, List.length_append, List.length_cons] at htl ⊢
          omega
    · intro o hN
      cases o with
      | nil => simp [sizeO, serializeObj]
      | cons k v tl =>
        have hN' : max (sizeJ v) (sizeO tl) + 1 ≤ N := by simpa [sizeO] using hN
        have hv := (ih (N - 1) (by omega)).1 v
          (le_trans (le_max_left (sizeJ v) (sizeO tl)) (by omega))
        have hvpos := serialize_length_pos v
        cases tl with
        | nil =>
          rw [serializeObj]
          simp only [sizeO, List.length_cons, List.length_append]
          omega
        | cons k2 v2 tl2 =>
          have htl := (ih (N - 1) (by omega)).2.2 (.cons k2 v2 tl2)
            (le_trans (le_max_right (sizeJ v) (sizeO (.cons k2 v2 tl2))) (by omega))
          rw [serializeObj]
          simp only [sizeO, List.length_append, List.length_cons] at htl ⊢
          omega

theorem sizeJ_le_length (v : Json) : sizeJ v ≤ (serialize v).length :=
  (size_le_length_bound (sizeJ v)).1 v le_rfl

/-- `JSON.parse` inverts `JSON.stringify`: the round-trip at the heart
of the cache's `set`/`get` pair. -/
theorem JSONparse_serialize (v : Json) : JSONparse (serialize v) = some v := by
  have h := (parse_serialize_bound (sizeJ v)).1 v le_rfl ((serialize v).length + 1) []
    (by have := sizeJ_le_length v; omega) rfl
  rw [List.append_nil] at h
  simp [JSONparse, h]

/-! ### Directory-listing lemmas -/

theorem lookupName_writeName_self (n : List Char) (f : FsFile) :
    ∀ l, lookupName n (writeName n f l) = some f := by
  intro l
  induction l with
  | nil => simp [writeName, lookupName]
  | cons e rest ih =>
    by_cases h : e.1 = n
    · simp [writeName, h, lookupName]
    · simp [writeName, h, lookupName, ih]

theorem lookupName_writeName_other (n m : List Char) (f : FsFile) (hne : m ≠ n) :
    ∀ l, lookupName m (writeName n f l) = lookupName m l := by
  have hnm : n ≠ m := fun h => hne h.symm
  intro l
  induction l with
  | nil => simp [writeName, lookupName, hnm]
  | cons e rest ih =>
    by_cases h : e.1 = n
    · simp [writeName, h, lookupName, hnm]
    · simp only [writeName, h, if_false, lookupName, ih]

theorem lookupName_removeName_self (n : List Char) :
    ∀ l, lookupName n (removeName n l) = none := by
  intro l
  induction l with
  | nil => simp [removeName, lookupName]
  | cons e rest ih =>
    by_cases h : e.1 = n
    · simp [removeName, h, ih]
    · simp [removeName, h, lookupName, ih]

theorem lookupName_removeName_other (n m : List Char) (hne : m ≠ n) :
    ∀ l, lookupName m (removeName n l) = lookupName m l := by
  intro l
  induction l with
  | nil => simp [removeName, lookupName]
  | cons e rest ih =>
    by_cases h : e.1 = n
    · rw [removeName, if_pos h, ih, lookupName, if_neg (h ▸ fun hh => hne hh.symm)]
    · rw [removeName, if_neg h, lookupName, lookupName]
      by_cases h2 : e.1 = m
      · simp [h2]
      · simp [h2, ih]

theorem lookupName_mem (n : List Char) (f : FsFile) :
    ∀ l, lookupName n l = some f → n ∈ l.map Prod.fst := by
  intro l
  induction l with
  | nil => simp [lookupName]
  | cons e rest ih =>
    intro h
    rw [lookupName] at h
    by_cases he : e.1 = n
    · rw [List.map_cons, he]
      exact List.mem_cons_self _ _
    · rw [if_neg he] at h
      rw [List.map_cons]
      exact List.mem_cons_of_mem _ (ih h)

theorem map_fst_removeName (n : List Char) :
    ∀ l : List (List Char × FsFile), ∀ m, m ∈ (removeName n l).map Prod.fst →
      m ∈ l.map Prod.fst := by
  intro l
  induction l with
  | nil =>
    intro m hm
    rw [removeName] at hm
    exact hm
  | cons e rest ih =>
    intro m hm
    by_cases h : e.1 = n
    · rw [removeName, if_pos h] at hm
      simp [ih m hm]
    · rw [removeName, if_neg h] at hm
      simp only [List.map_cons, List.mem_cons] at hm ⊢
      rcases hm with hm | hm
      · exact Or.inl hm
      · exact Or.inr (ih m hm)

/-! ### `split('.')[0]` lemmas -/

theorem jsSplitFirst_eq_self (sep : Char) (s : List Char) (h : sep ∉ s) :
    jsSplitFirst sep s = s := by
  rw [jsSplitFirst, List.takeWhile_eq_self_iff]
  intro x hx
  simp only [bne_iff_ne, ne_eq]
  exact fun hxs => h (hxs ▸ hx)

theorem jsSplitFirst_ne_self (sep : Char) (s : List Char) (h : sep ∈ s) :
    jsSplitFirst sep s ≠ s := by
  intro heq
  have hmem : sep ∈ jsSplitFirst sep s := by rw [heq]; exact h
  have := List.mem_takeWhile_imp hmem
  simp at this

/-! ### Cache-operation lemmas -/

open FileCache

theorem set_ok_shape (hash : List Char → List Char) (c : FileCache) (nowMs : Nat)
    (fs fs' : FS) (key : List Char) (v : Json) (optTtl : Option Nat)
    (hset : FileCache.set hash c nowMs fs key v optTtl = .ok fs') :
    ∃ entries, fs.root = some entries ∧
      fs' = { fs with root := some (writeName (getPath hash key)
        ⟨true, JSONstringify v, nowMs + jsOrNat optTtl c.ttl * 1000⟩ entries) } := by
  simp only [FileCache.set] at hset
  cases hroot : fs.root with
  | none =>
    rw [hroot] at hset
    cases hset
  | some entries =>
    rw [hroot] at hset
    simp only [] at hset
    refine ⟨entries, rfl, ?_⟩
    cases hlook : lookupName (getPath hash key) entries with
    | none =>
      rw [hlook] at hset
      simp only [] at hset
      exact (Except.ok.inj hset).symm
    | some old =>
      rw [hlook] at hset
      simp only [] at hset
      by_cases hisf : old.isFile = true
      · rw [if_pos hisf] at hset
        exact (Except.ok.inj hset).symm
      · rw [if_neg hisf] at hset
        cases hset

theorem get_after_set (hash : List Char → List Char) (c : FileCache)
    (nowMs nowMs2 : Nat) (fs fs' : FS) (key : List Char) (v : Json) (optTtl : Option Nat)
    (hset : FileCache.set hash c nowMs fs key v optTtl = .ok fs')
    (hbad : getPath hash key ∉ fs.badStat)
    (hlive : time nowMs2 * 1000 < nowMs + jsOrNat optTtl c.ttl * 1000) :
    get hash nowMs2 fs' key = .ok (some v, fs') := by
  obtain ⟨entries, hroot, rfl⟩ := set_ok_shape hash c nowMs fs fs' key v optTtl hset
  simp only [FileCache.getPath] at hbad
  simp only [FileCache.get, FileCache.has, FileCache.validate, FileCache.getPath,
    entryAt, lookupName_writeName_self, JSONstringify, JSONparse_serialize]
  simp [hbad, hlive, lookupName_writeName_self, JSONstringify, JSONparse_serialize]

/-! ### Claim theorems -/

/-- C1: for every key `k` and JSON-serializable value `v`, `set(k, v)`
followed immediately by `get(k)` — no intervening operation and no time
advance past the effective TTL — returns a value deep-equal to `v`
(here: equal in the `Json` model).  The stat-fault hypothesis rules out
the injected non-ENOENT filesystem errors the claim presupposes absent. -/
theorem C1_set_then_get (hash : List Char → List Char) (c : FileCache)
    (nowMs nowMs2 : Nat) (fs fs' : FS) (key : List Char) (v : Json) (optTtl : Option Nat)
    (hset : FileCache.set hash c nowMs fs key v optTtl = .ok fs')
    (hbad : FileCache.getPath hash key ∉ fs.badStat)
    (hlive : FileCache.time nowMs2 * 1000 < nowMs + jsOrNat optTtl c.ttl * 1000) :
    FileCache.get hash nowMs2 fs' key = .ok (some v, fs') :=
  get_after_set hash c nowMs nowMs2 fs fs' key v optTtl hset hbad hlive

/-- Witness for C1 at a concrete state: hash is the identity, the root
starts empty, `set` stores `true` under key `a` with the default TTL,
and `get` at the same instant returns it. -/
theorem C1_witness :
    FileCache.get (fun k => k) 0
      ⟨some [(['a'], ⟨true, serialize (.bool true), 86400000⟩)], [], false⟩ ['a'] =
      .ok (some (.bool true),
        ⟨some [(['a'], ⟨true, serialize (.bool true), 86400000⟩)], [], false⟩) :=
  C1_set_then_get (fun k => k) ⟨86400⟩ 0 0 ⟨some [], [], false⟩
    ⟨some [(['a'], ⟨true, serialize (.bool true), 86400000⟩)], [], false⟩
    ['a'] (.bool true) none (by decide) (by decide) (by decide)

/-- C5: a successful `set(k, v, {ttl: t})` leaves, at the hashed path,
a regular file whose content is the serialized value and whose mtime is
`now + effective-TTL` milliseconds, where a positive per-call `t` is
used as-is, an absent (or falsy) per-call TTL falls back to the
instance default, and the constructor's default TTL is 86400 seconds
whenever the construction option is absent or falsy (including 0). -/
theorem C5_set_ttl (hash : List Char → List Char) (c : FileCache) (nowMs : Nat)
    (fs fs' : FS) (key : List Char) (v : Json) (optTtl : Option Nat)
    (hset : FileCache.set hash c nowMs fs key v optTtl = .ok fs') :
    entryAt fs' (FileCache.getPath hash key) =
      some ⟨true, JSONstringify v, nowMs + jsOrNat optTtl c.ttl * 1000⟩
  ∧ (∀ t, optTtl = some t → 0 < t → jsOrNat optTtl c.ttl = t)
  ∧ ((optTtl = none ∨ optTtl = some 0) → jsOrNat optTtl c.ttl = c.ttl)
  ∧ (∀ o nowMs2 fs2, (o = none ∨ o = some 0) →
      (FileCache.init o nowMs2 fs2).1.ttl = 86400) := by
  obtain ⟨entries, hroot, rfl⟩ := set_ok_shape hash c nowMs fs fs' key v optTtl hset
  refine ⟨?_, ?_, ?_, ?_⟩
  · simp [entryAt, lookupName_writeName_self]
  · rintro t rfl ht
    rw [jsOrNat, if_neg (by omega)]
  · rintro (rfl | rfl) <;> simp [jsOrNat]
  · rintro o nowMs2 fs2 (rfl | rfl) <;> simp [FileCache.init, jsOrNat]

/-- Witness for C5: per-call TTL 7 on an empty root at time 0 writes
the entry with mtime 7000 ms. -/
theorem C5_witness :
    entryAt ⟨some [(['b'], ⟨true, serialize .null, 7000⟩)], [], false⟩ ['b'] =
      some ⟨true, serialize .null, 7000⟩ :=
  (C5_set_ttl (fun k => k) ⟨86400⟩ 0 ⟨some [], [], false⟩
    ⟨some [(['b'], ⟨true, serialize .null, 7000⟩)], [], false⟩
    ['b'] .null (some 7) (by decide)).1

/-- C6: `has` swallows every error of `validate` into `false` (it never
throws), and a `false` answer makes `get` return `null` rather than
propagate anything — misses and expired entries are never errors. -/
theorem C6_has_swallows (hash : List Char → List Char) (nowMs : Nat) (fs : FS)
    (key : List Char) :
    (∀ e, FileCache.validate nowMs fs (FileCache.getPath hash key) = .error e →
      FileCache.has hash nowMs fs key = (false, fs))
  ∧ (∀ fs', FileCache.has hash nowMs fs key = (false, fs') →
      FileCache.get hash nowMs fs key = .ok (none, fs')) := by
  constructor
  · intro e he
    simp [FileCache.has, he]
  · intro fs' hh
    simp [FileCache.get, hh]

/-- Witness for C6: a stat fault injected on the looked-up name is
swallowed by `has`, which reports `false` with the state unchanged. -/
theorem C6_witness :
    FileCache.has (fun k => k) 0 ⟨some [], [['q']], false⟩ ['q'] =
      (false, ⟨some [], [['q']], false⟩) :=
  (C6_has_swallows (fun k => k) 0 ⟨some [], [['q']], false⟩ ['q']).1 .other (by decide)

/-- C7: `delete` on a key whose hashed path does not exist propagates
the not-found error (nothing is caught), in contrast to `has` (always
tolerant) and `validate` (tolerant short of injected faults), which
report absence as `false`. -/
theorem C7_delete_not_special (hash : List Char → List Char) (nowMs : Nat) (fs : FS)
    (key : List Char)
    (habs : entryAt fs (FileCache.getPath hash key) = none) :
    FileCache.delete hash fs key = .error .enoent
  ∧ FileCache.has hash nowMs fs key = (false, fs)
  ∧ (FileCache.getPath hash key ∉ fs.badStat →
      FileCache.validate nowMs fs (FileCache.getPath hash key) = .ok (false, fs)) := by
  refine ⟨?_, ?_, ?_⟩
  · cases he : fs.root with
    | none => simp [FileCache.delete, he]
    | some entries =>
      simp only [entryAt, he] at habs
      simp [FileCache.delete, he, habs]
  · by_cases hbad : FileCache.getPath hash key ∈ fs.badStat
    · simp [FileCache.has, FileCache.validate, hbad]
    · cases he : fs.root with
      | none => simp [FileCache.has, FileCache.validate, he, hbad]
      | some entries =>
        simp only [entryAt, he] at habs
        simp [FileCache.has, FileCache.validate, he, habs, hbad]
  · intro hbad
    cases he : fs.root with
    | none => simp [FileCache.validate, he, hbad]
    | some entries =>
      simp only [entryAt, he] at habs
      simp [FileCache.validate, he, habs, hbad]

/-- Witness for C7: deleting a key absent from an existing root errors
with the not-found error. -/
theorem C7_witness :
    FileCache.delete (fun k => k) ⟨some [], [], false⟩ ['z'] = .error .enoent :=
  (C7_delete_not_special (fun k => k) 0 ⟨some [], [], false⟩ ['z'] (by decide)).1

/-- C9: `has(k)` twice in immediate succession, with no intervening
`set` and no time advance, answers the same boolean both times; a live
entry is left untouched by the first call, and an expired entry is
deleted by the first call so that it is absent afterwards. -/
theorem C9_has_idempotent (hash : List Char → List Char) (nowMs : Nat) (fs : FS)
    (key : List Char) :
    ((FileCache.has hash nowMs ((FileCache.has hash nowMs fs key).2) key).1
      = (FileCache.has hash nowMs fs key).1)
  ∧ (∀ f, FileCache.getPath hash key ∉ fs.badStat →
      entryAt fs (FileCache.getPath hash key) = some f → f.isFile = true →
      FileCache.time nowMs * 1000 < f.mtimeMs →
      FileCache.has hash nowMs fs key = (true, fs))
  ∧ (∀ f entries, fs.root = some entries → FileCache.getPath hash key ∉ fs.badStat →
      lookupName (FileCache.getPath hash key) entries = some f → f.isFile = true →
      ¬ FileCache.time nowMs * 1000 < f.mtimeMs →
      FileCache.has hash nowMs fs key =
        (false, { fs with root := some (removeName (FileCache.getPath hash key) entries) })
      ∧ entryAt { fs with root := some (removeName (FileCache.getPath hash key) entries) }
          (FileCache.getPath hash key) = none) := by
  refine ⟨?_, ?_, ?_⟩
  · by_cases hbad : FileCache.getPath hash key ∈ fs.badStat
    · simp [FileCache.has, FileCache.validate, hbad]
    · cases he : fs.root with
      | none => simp [FileCache.has, FileCache.validate, hbad, he]
      | some entries =>
        cases hl : lookupName (FileCache.getPath hash key) entries with
        | none => simp [FileCache.has, FileCache.validate, hbad, he, hl]
        | some f =>
          by_cases hisf : f.isFile = true
          · by_cases hlive : FileCache.time nowMs * 1000 < f.mtimeMs
            · simp [FileCache.has, FileCache.validate, hbad, he, hl, hisf, hlive]
            · simp [FileCache.has, FileCache.validate, hbad, he, hl, hisf, hlive,
                lookupName_removeName_self]
          · simp [FileCache.has, FileCache.validate, hbad, he, hl, hisf]
  · intro f hbad hent hisf hlive
    cases he : fs.root with
    | none => rw [entryAt, he] at hent; cases hent
    | some entries =>
      simp only [entryAt, he] at hent
      simp [FileCache.has, FileCache.validate, hbad, he, hent, hisf, hlive]
  · intro f entries he hbad hl hisf hlive
    constructor
    · simp [FileCache.has, FileCache.validate, hbad, he, hl, hisf, hlive]
    · simp [entryAt, lookupName_removeName_self]

/-- Witness for C9: an entry expired at the current instant is pruned
by the first `has`, which reports `false` and leaves the name absent. -/
theorem C9_witness :
    FileCache.has (fun k => k) 2000 ⟨some [(['w'], ⟨true, [], 1000⟩)], [], false⟩ ['w'] =
      (false, ⟨some [], [], false⟩)
    ∧ entryAt ⟨some [], [], false⟩ ['w'] = none :=
  (C9_has_idempotent (fun k => k) 2000 ⟨some [(['w'], ⟨true, [], 1000⟩)], [], false⟩
    ['w']).2.2 ⟨true, [], 1000⟩ [(['w'], ⟨true, [], 1000⟩)] rfl (by decide) (by decide)
    rfl (by decide)

/-- C10: `getAllKeys` maps every directory entry name through
`split('.')[0]`, so a returned identifier is the on-disk name truncated
at its first dot; it equals the on-disk name exactly when the name is
dot-free (as sha1 hex digests are). -/
theorem C10_getAllKeys_truncates (fs : FS) (entries : List (List Char × FsFile))
    (hbr : fs.badReaddir = false) (hroot : fs.root = some entries) :
    FileCache.getAllKeys fs = .ok (entries.map (fun e => jsSplitFirst '.' e.1))
  ∧ (∀ n f, (n, f) ∈ entries → ('.' : Char) ∈ n → jsSplitFirst '.' n ≠ n)
  ∧ (∀ n f, (n, f) ∈ entries → ('.' : Char) ∉ n → jsSplitFirst '.' n = n) := by
  refine ⟨?_, ?_, ?_⟩
  · simp [FileCache.getAllKeys, hbr, hroot]
  · intro n f _ hdot
    exact jsSplitFirst_ne_self '.' n hdot
  · intro n f _ hdot
    exact jsSplitFirst_eq_self '.' n hdot

/-- Witness for C10: the entry file named `a.b` is listed as `a`, not
as its full on-disk name. -/
theorem C10_witness :
    FileCache.getAllKeys ⟨some [(['a', '.', 'b'], ⟨true, [], 0⟩)], [], false⟩ =
      .ok [['a']] :=
  (C10_getAllKeys_truncates ⟨some [(['a', '.', 'b'], ⟨true, [], 0⟩)], [], false⟩
    [(['a', '.', 'b'], ⟨true, [], 0⟩)] rfl rfl).1

/-- C8: `getAllKeys` returns the identifiers of all current entries
(dot-free on-disk names, as `set` writes, are returned verbatim and
regardless of expiry); a missing root yields the empty sequence rather
than an error, while a non-ENOENT readdir failure propagates. -/
theorem C8_getAllKeys_spec (fs : FS) :
    (fs.badReaddir = true → FileCache.getAllKeys fs = .error .other)
  ∧ (fs.badReaddir = false → fs.root = none → FileCache.getAllKeys fs = .ok [])
  ∧ (∀ entries, fs.badReaddir = false → fs.root = some entries →
      (∀ p ∈ entries, ('.' : Char) ∉ p.1) →
      FileCache.getAllKeys fs = .ok (entries.map Prod.fst)) := by
  refine ⟨?_, ?_, ?_⟩
  · intro h
    simp [FileCache.getAllKeys, h]
  · intro h1 h2
    simp [FileCache.getAllKeys, h1, h2]
  · intro entries h1 h2 hdot
    simp only [FileCache.getAllKeys, h1, h2, Bool.false_eq_true, if_false]
    congr 1
    exact List.map_congr_left fun p hp => jsSplitFirst_eq_self '.' p.1 (hdot p hp)

/-- Witness for C8: a root holding one live and one expired entry lists
both names; a missing root lists nothing. -/
theorem C8_witness :
    FileCache.getAllKeys ⟨some [(['x'], ⟨true, [], 0⟩), (['y'], ⟨true, [], 99⟩)], [], false⟩ =
      .ok [['x'], ['y']]
    ∧ FileCache.getAllKeys ⟨none, [], false⟩ = .ok [] :=
  ⟨(C8_getAllKeys_spec ⟨some [(['x'], ⟨true, [], 0⟩), (['y'], ⟨true, [], 99⟩)], [], false⟩).2.2
      [(['x'], ⟨true, [], 0⟩), (['y'], ⟨true, [], 99⟩)] rfl rfl (by decide),
    (C8_getAllKeys_spec ⟨none, [], false⟩).2.1 rfl rfl⟩

/-- C2: `validate(p)` (absent injected stat faults) returns `true` iff
`p` is a regular file whose mtime-encoded deadline is strictly later
than the current time at second granularity (`time(now) * 1000 <
mtimeMs`, i.e. `floor(now / 1000) < mtimeMs / 1000`); an expired
regular file is unlinked and reported `false`; a missing path and a
non-file are reported `false` without error. -/
theorem C2_validate_spec (nowMs : Nat) (fs : FS) (n : List Char)
    (hbad : n ∉ fs.badStat) :
    (entryAt fs n = none → FileCache.validate nowMs fs n = .ok (false, fs))
  ∧ (∀ f, entryAt fs n = some f → f.isFile = false →
      FileCache.validate nowMs fs n = .ok (false, fs))
  ∧ (∀ f, entryAt fs n = some f → f.isFile = true →
      FileCache.time nowMs * 1000 < f.mtimeMs →
      FileCache.validate nowMs fs n = .ok (true, fs))
  ∧ (∀ f entries, fs.root = some entries → lookupName n entries = some f →
      f.isFile = true → ¬ FileCache.time nowMs * 1000 < f.mtimeMs →
      FileCache.validate nowMs fs n =
        .ok (false, { fs with root := some (removeName n entries) })
      ∧ entryAt { fs with root := some (removeName n entries) } n = none)
  ∧ (∀ b fs', FileCache.validate nowMs fs n = .ok (b, fs') →
      (b = true ↔ ∃ f, entryAt fs n = some f ∧ f.isFile = true ∧
        FileCache.time nowMs * 1000 < f.mtimeMs)) := by
  refine ⟨?_, ?_, ?_, ?_, ?_⟩
  · intro hent
    cases he : fs.root with
    | none => simp [FileCache.validate, hbad, he]
    | some entries =>
      simp only [entryAt, he] at hent
      simp [FileCache.validate, hbad, he, hent]
  · intro f hent hisf
    cases he : fs.root with
    | none => rw [entryAt, he] at hent; cases hent
    | some entries =>
      simp only [entryAt, he] at hent
      simp [FileCache.validate, hbad, he, hent, hisf]
  · intro f hent hisf hlive
    cases he : fs.root with
    | none => rw [entryAt, he] at hent; cases hent
    | some entries =>
      simp only [entryAt, he] at hent
      simp [FileCache.validate, hbad, he, hent, hisf, hlive]
  · intro f entries he hl hisf hlive
    constructor
    · simp [FileCache.validate, hbad, he, hl, hisf, hlive]
    · simp [entryAt, lookupName_removeName_self]
  · intro b fs' hval
    cases he : fs.root with
    | none =>
      simp only [FileCache.validate, hbad, he] at hval
      obtain ⟨hb, -⟩ := Prod.mk.injEq .. ▸ Except.ok.inj hval
      simp [← hb, entryAt, he]
    | some entries =>
      cases hl : lookupName n entries with
      | none =>
        simp only [FileCache.validate, he, hl, if_neg hbad] at hval
        obtain ⟨hb, -⟩ := Prod.mk.injEq .. ▸ Except.ok.inj hval
        simp [← hb, entryAt, he, hl]
      | some f =>
        by_cases hisf : f.isFile = true
        · by_cases hlive : FileCache.time nowMs * 1000 < f.mtimeMs
          · simp only [FileCache.validate, he, hl, hisf, hlive, if_neg hbad,
              if_true] at hval
            obtain ⟨hb, -⟩ := Prod.mk.injEq .. ▸ Except.ok.inj hval
            subst hb
            exact iff_of_true rfl ⟨f, by simp [entryAt, he, hl], hisf, hlive⟩
          · simp only [FileCache.validate, he, hl, hisf, hlive, if_neg hbad,
              if_true, if_false] at hval
            obtain ⟨hb, -⟩ := Prod.mk.injEq .. ▸ Except.ok.inj hval
            subst hb
            refine iff_of_false (by simp) ?_
            rintro ⟨g, hg, hgf, hglive⟩
            simp only [entryAt, he, hl] at hg
            cases hg
            exact hlive hglive
        · simp only [FileCache.validate, he, hl, hisf, if_neg hbad, if_false] at hval
          obtain ⟨hb, -⟩ := Prod.mk.injEq .. ▸ Except.ok.inj hval
          subst hb
          refine iff_of_false (by simp) ?_
          rintro ⟨g, hg, hgf, -⟩
          simp only [entryAt, he, hl] at hg
          cases hg
          exact hisf hgf

/-- Witness for C2: at `now = 2000` ms, a regular file with mtime 2000
ms is exactly at its deadline, hence expired: `validate` deletes it and
returns `false`. -/
theorem C2_witness :
    FileCache.validate 2000 ⟨some [(['e'], ⟨true, [], 2000⟩)], [], false⟩ ['e'] =
      .ok (false, ⟨some [], [], false⟩)
    ∧ entryAt ⟨some [], [], false⟩ ['e'] = none :=
  (C2_validate_spec 2000 ⟨some [(['e'], ⟨true, [], 2000⟩)], [], false⟩ ['e']
    (by decide)).2.2.2.1 ⟨true, [], 2000⟩ [(['e'], ⟨true, [], 2000⟩)] rfl rfl rfl
    (by decide)


/-- C4: `clear` wipes the root and then recreates it, leaving the cache
empty and immediately usable: the result is the state with an empty
root, `getAllKeys` then returns the empty sequence, and a subsequent
`set`/`get` round-trip on the cleared state still returns the stored
value. -/
theorem C4_clear_spec (nowMs : Nat) (fs : FS) (hbr : fs.badReaddir = false) :
    FileCache.clear nowMs fs = .ok { fs with root := some [] }
  ∧ FileCache.getAllKeys { fs with root := some [] } = .ok []
  ∧ (∀ (hash : List Char → List Char) (c : FileCache) (nowMs2 nowMs3 : Nat) (fs'' : FS)
      (key : List Char) (v : Json) (optTtl : Option Nat),
      FileCache.set hash c nowMs2 { fs with root := some [] } key v optTtl = .ok fs'' →
      FileCache.getPath hash key ∉ fs.badStat →
      FileCache.time nowMs3 * 1000 < nowMs2 + jsOrNat optTtl c.ttl * 1000 →
      FileCache.get hash nowMs3 fs'' key = .ok (some v, fs'')) := by
  refine ⟨?_, ?_, ?_⟩
  · cases he : fs.root with
    | none =>
      simp [FileCache.clear, FileCache.clearFolder, FileCache.deleteFolderRecursive,
        FileCache.createFolder, FileCache.validateCache, FileCache.getAllKeys,
        FileCache.validateList, he, hbr]
    | some entries =>
      simp [FileCache.clear, FileCache.clearFolder, FileCache.deleteFolderRecursive,
        FileCache.createFolder, FileCache.validateCache, FileCache.getAllKeys,
        FileCache.validateList, he, hbr]
  · simp [FileCache.getAllKeys, hbr]
  · intro hash c nowMs2 nowMs3 fs2 key v optTtl hset hbad hlive
    exact get_after_set hash c nowMs2 nowMs3 _ fs2 key v optTtl hset hbad hlive

/-- Witness for C4: clearing a one-entry cache empties it, the listing
is then empty, and a fresh `set`/`get` round-trip succeeds. -/
theorem C4_witness :
    FileCache.clear 0 ⟨some [(['o'], ⟨true, [], 5⟩)], [], false⟩ = .ok ⟨some [], [], false⟩
  ∧ FileCache.getAllKeys ⟨some [], [], false⟩ = .ok []
  ∧ FileCache.get (fun k => k) 0
      ⟨some [(['k'], ⟨true, serialize .null, 86400000⟩)], [], false⟩ ['k'] =
      .ok (some .null, ⟨some [(['k'], ⟨true, serialize .null, 86400000⟩)], [], false⟩) := by
  have h := C4_clear_spec 0 ⟨some [(['o'], ⟨true, [], 5⟩)], [], false⟩ rfl
  exact ⟨h.1, h.2.1,
    h.2.2 (fun k => k) ⟨86400⟩ 0 0
      ⟨some [(['k'], ⟨true, serialize .null, 86400000⟩)], [], false⟩ ['k'] .null none
      (by decide) (by decide) (by decide)⟩

/-- One step of the construction-time validation pass: on a state with
no injected stat faults, `validate` succeeds, preserves the fault
fields, never adds entries, keeps every other name's binding, and
removes the validated name when it holds an expired regular file. -/
theorem validate_step (nowMs : Nat) (fs : FS) (k : List Char) (hbs : fs.badStat = []) :
    ∃ b fs', FileCache.validate nowMs fs k = .ok (b, fs')
      ∧ fs'.badStat = []
      ∧ fs'.badReaddir = fs.badReaddir
      ∧ (∀ m, entryAt fs m = none → entryAt fs' m = none)
      ∧ (∀ n g l2, n ≠ k → fs.root = some l2 → lookupName n l2 = some g →
          ∃ e2, fs'.root = some e2 ∧ lookupName n e2 = some g)
      ∧ (∀ g l2, fs.root = some l2 → lookupName k l2 = some g →
          g.isFile = true → ¬ FileCache.time nowMs * 1000 < g.mtimeMs →
          entryAt fs' k = none) := by
  have hbad : k ∉ fs.badStat := by rw [hbs]; simp
  cases he : fs.root with
  | none =>
    refine ⟨false, fs, by simp [FileCache.validate, hbad, he], hbs, rfl,
      fun m hm => hm, ?_, ?_⟩
    · intro n g l2 hne hroot
      cases hroot
    · intro g l2 hroot
      cases hroot
  | some entries =>
    cases hl : lookupName k entries with
    | none =>
      refine ⟨false, fs, by simp [FileCache.validate, hbad, he, hl], hbs, rfl,
        fun m hm => hm, ?_, ?_⟩
      · intro n g l2 hne hroot hlook
        cases hroot
        exact ⟨entries, he, hlook⟩
      · intro g l2 hroot hlk
        cases hroot
        rw [hl] at hlk
        cases hlk
    | some f =>
      by_cases hisf : f.isFile = true
      · by_cases hlive : FileCache.time nowMs * 1000 < f.mtimeMs
        · refine ⟨true, fs, by simp [FileCache.validate, hbad, he, hl, hisf, hlive],
            hbs, rfl, fun m hm => hm, ?_, ?_⟩
          · intro n g l2 hne hroot hlook
            cases hroot
            exact ⟨entries, he, hlook⟩
          · intro g l2 hroot hlk hgf hgexp
            cases hroot
            rw [hl] at hlk
            cases hlk
            exact absurd hlive hgexp
        · refine ⟨false, { fs with root := some (removeName k entries) },
            by simp [FileCache.validate, hbad, he, hl, hisf, hlive], hbs, rfl, ?_, ?_, ?_⟩
          · intro m hm
            simp only [entryAt, he] at hm
            by_cases hmk : m = k
            · subst hmk
              simp [entryAt, lookupName_removeName_self]
            · simp [entryAt, lookupName_removeName_other k m hmk, hm]
          · intro n g l2 hne hroot hlook
            cases hroot
            exact ⟨removeName k entries, rfl,
              by rw [lookupName_removeName_other k n hne]; exact hlook⟩
          · intro g l2 hroot hlk hgf hgexp
            simp [entryAt, lookupName_removeName_self]
      · refine ⟨false, fs, by simp [FileCache.validate, hbad, he, hl, hisf], hbs, rfl,
          fun m hm => hm, ?_, ?_⟩
        · intro n g l2 hne hroot hlook
          cases hroot
          exact ⟨entries, he, hlook⟩
        · intro g l2 hroot hlk hgf hgexp
          cases hroot
          rw [hl] at hlk
          cases hlk
          exact absurd hgf hisf

/-- The whole construction-time validation pass: it succeeds on a state
with no injected stat faults, never adds entries, and removes every
listed name that holds an expired regular file. -/
theorem validateList_prunes (nowMs : Nat) (keys : List (List Char)) :
    ∀ fs : FS, fs.badStat = [] →
      ∃ fs', FileCache.validateList nowMs fs keys = .ok fs'
        ∧ fs'.badStat = []
        ∧ fs'.badReaddir = fs.badReaddir
        ∧ (∀ m, entryAt fs m = none → entryAt fs' m = none)
        ∧ (∀ n g l2, fs.root = some l2 → lookupName n l2 = some g →
            g.isFile = true → ¬ FileCache.time nowMs * 1000 < g.mtimeMs → n ∈ keys →
            entryAt fs' n = none) := by
  induction keys with
  | nil =>
    intro fs hbs
    exact ⟨fs, rfl, hbs, rfl, fun m hm => hm,
      fun n g l2 _ _ _ _ hmem => absurd hmem (by simp)⟩
  | cons k ks ih =>
    intro fs hbs
    obtain ⟨b1, fs1, hval, hbs1, hbr1, hnoadd1, hkeep1, hprune1⟩ :=
      validate_step nowMs fs k hbs
    obtain ⟨fs2, hlist, hbs2, hbr2, hnoadd2, hprune2⟩ := ih fs1 hbs1
    refine ⟨fs2, ?_, hbs2, hbr2.trans hbr1, fun m hm => hnoadd2 m (hnoadd1 m hm), ?_⟩
    · simp [FileCache.validateList, hval, hlist]
    · intro n g l2 hroot hlook hgf hgexp hmem
      by_cases hnk : n = k
      · subst hnk
        exact hnoadd2 n (hprune1 g l2 hroot hlook hgf hgexp)
      · rcases List.mem_cons.mp hmem with h | h
        · exact absurd h hnk
        · obtain ⟨e2, hroot2, hlook2⟩ := hkeep1 n g l2 hnk hroot hlook
          exact hprune2 n g e2 hroot2 hlook2 hgf hgexp h

/-- C3: constructing the engine over a pre-populated root that contains
an already-expired entry file (dot-free name, regular file, mtime not
in the future) runs the validation pass and removes that file during
construction — under the sequential I/O model, before any public
operation can run. -/
theorem C3_init_prunes (optTtl : Option Nat) (nowMs : Nat) (fs : FS)
    (entries : List (List Char × FsFile)) (n : List Char) (f : FsFile)
    (hroot : fs.root = some entries) (hbs : fs.badStat = [])
    (hbr : fs.badReaddir = false) (hlook : lookupName n entries = some f)
    (hdot : ('.' : Char) ∉ n) (hfile : f.isFile = true)
    (hexp : ¬ FileCache.time nowMs * 1000 < f.mtimeMs) :
    ∃ fs', (FileCache.init optTtl nowMs fs).2 = .ok fs' ∧ entryAt fs' n = none := by
  have hkeys : FileCache.getAllKeys fs =
      .ok (entries.map (fun e => jsSplitFirst '.' e.1)) := by
    simp [FileCache.getAllKeys, hbr, hroot]
  have hmem : n ∈ entries.map (fun e => jsSplitFirst '.' e.1) := by
    obtain ⟨p, hp, hpn⟩ := List.mem_map.mp (lookupName_mem n f entries hlook)
    exact List.mem_map.mpr ⟨p, hp, by rw [hpn]; exact jsSplitFirst_eq_self '.' n hdot⟩
  obtain ⟨fs', hlist, -, -, -, hprune⟩ := validateList_prunes nowMs
    (entries.map (fun e => jsSplitFirst '.' e.1)) fs hbs
  refine ⟨fs', ?_, hprune n f entries hroot hlook hfile hexp hmem⟩
  simp [FileCache.init, FileCache.createFolder, hroot, FileCache.validateCache,
    hkeys, hlist]

/-- Witness for C3: a root pre-populated with the expired entry `e`
(mtime 1000 ms, constructed at 5000 ms) loses that entry during
construction. -/
theorem C3_witness :
    ∃ fs', (FileCache.init none 5000 ⟨some [(['e'], ⟨true, [], 1000⟩)], [], false⟩).2 =
      .ok fs' ∧ entryAt fs' ['e'] = none :=
  C3_init_prunes none 5000 ⟨some [(['e'], ⟨true, [], 1000⟩)], [], false⟩
    [(['e'], ⟨true, [], 1000⟩)] ['e'] ⟨true, [], 1000⟩ rfl rfl rfl rfl (by decide) rfl
    (by decide)

end FlatFileCache
